import Mathlib

/-!
Verification of the data-retrieval routine `load_data` of
`src/stock_downloader.py` (retry/backoff with a two-method fallback).

The routine is embedded as a pure Lean function parametrised by a
`Provider` oracle describing, per attempt index, what each of the two
yfinance calls (`Ticker.history` and `yf.download`) would return: either a
list of `(date, close)` rows or a raised exception carrying its message
string.  The embedding returns the resulting series together with a trace
of observable events: provider calls (with their string arguments),
`time.sleep` delays, and `st.warning` / `st.error` advisories.
-/

namespace StockDownloader

/-- Calendar date, proleptic Gregorian, as used by `datetime.date`. -/
structure SimpleDate where
  year : Nat
  month : Nat
  day : Nat
  deriving DecidableEq

/-- Gregorian leap-year rule (as in Python's `datetime`). -/
def isLeapYear (y : Nat) : Bool :=
  (y % 4 == 0 && y % 100 != 0) || y % 400 == 0

/-- Number of days in a month (0 for an invalid month index). -/
def daysInMonth (y m : Nat) : Nat :=
  match m with
  | 1 => 31
  | 2 => if isLeapYear y then 29 else 28
  | 3 => 31
  | 4 => 30
  | 5 => 31
  | 6 => 30
  | 7 => 31
  | 8 => 31
  | 9 => 30
  | 10 => 31
  | 11 => 30
  | 12 => 31
  | _ => 0

/-- `d + timedelta(days=1)`: the next calendar day. -/
def nextDay (d : SimpleDate) : SimpleDate :=
  if d.day < daysInMonth d.year d.month then
    ⟨d.year, d.month, d.day + 1⟩
  else if d.month < 12 then
    ⟨d.year, d.month + 1, 1⟩
  else
    ⟨d.year + 1, 1, 1⟩

/-- Strict chronological order on dates (lexicographic on year, month, day). -/
def dateLt (a b : SimpleDate) : Prop :=
  a.year < b.year ∨
    (a.year = b.year ∧
      (a.month < b.month ∨ (a.month = b.month ∧ a.day < b.day)))

instance (a b : SimpleDate) : Decidable (dateLt a b) := by
  unfold dateLt; exact inferInstance

/-- Non-strict chronological order on dates. -/
def dateLe (a b : SimpleDate) : Prop :=
  dateLt a b ∨ a = b

instance (a b : SimpleDate) : Decidable (dateLe a b) := by
  unfold dateLe; exact inferInstance

/-- A real calendar date within the 4-digit-year range that pandas
timestamps inhabit (pandas `datetime64[ns]` covers years 1677–2262). -/
def validDate (d : SimpleDate) : Prop :=
  1000 ≤ d.year ∧ d.year ≤ 9999 ∧ 1 ≤ d.month ∧ d.month ≤ 12 ∧
    1 ≤ d.day ∧ d.day ≤ daysInMonth d.year d.month

instance (d : SimpleDate) : Decidable (validDate d) := by
  unfold validDate; exact inferInstance

/-- The ASCII digit character for `n < 10`. -/
def digitChar (n : Nat) : Char := Char.ofNat (48 + n)

/-- Four-digit zero-padded decimal rendering (the `%Y` field for
4-digit years). -/
def pad4 (n : Nat) : List Char :=
  [digitChar (n / 1000 % 10), digitChar (n / 100 % 10),
   digitChar (n / 10 % 10), digitChar (n % 10)]

/-- Two-digit zero-padded decimal rendering (the `%m` / `%d` fields). -/
def pad2 (n : Nat) : List Char :=
  [digitChar (n / 10 % 10), digitChar (n % 10)]

/-- `strftime('%Y-%m-%d')` for dates with a year of at most 4 digits
(all pandas-representable dates qualify). -/
def formatDate (d : SimpleDate) : String :=
  ⟨pad4 d.year ++ '-' :: (pad2 d.month ++ '-' :: pad2 d.day)⟩

/-- Checks that a string has the shape `YYYY-MM-DD`. -/
def isYYYYMMDD (s : String) : Bool :=
  match s.toList with
  | [a, b, c, d, e, f, g, h, i, j] =>
    a.isDigit && b.isDigit && c.isDigit && d.isDigit && e == '-' &&
      f.isDigit && g.isDigit && h == '-' && i.isDigit && j.isDigit
  | _ => false

/-- `pat` occurs at the start of `hay` (character lists). -/
def strStartsWith : List Char → List Char → Bool
  | _, [] => true
  | [], _ :: _ => false
  | h :: hs, p :: ps => h == p && strStartsWith hs ps

/-- `pat` occurs somewhere inside `hay` (character lists);
this is Python's `pat in hay` on strings. -/
def strContains : List Char → List Char → Bool
  | [], pat => pat.isEmpty
  | h :: t, pat => strStartsWith (h :: t) pat || strContains t pat

/-- Python's case-sensitive substring test `pat in s`. -/
def containsSubstr (s pat : String) : Bool :=
  strContains s.toList pat.toList

/-- Round a rational to the nearest integer, ties to the even integer.
This is the rounding used by numpy/pandas `round` ("round half to even",
per the numpy documentation). -/
def rintQ (q : ℚ) : ℤ :=
  let f : ℤ := ⌊q⌋
  if q - f < 1 / 2 then f
  else if 1 / 2 < q - f then f + 1
  else if f % 2 = 0 then f else f + 1

/-- pandas `Series.round(2)`: round to 2 fractional digits,
ties to even. -/
def round2 (q : ℚ) : ℚ := (rintQ (q * 100) : ℚ) / 100

/-- Outcome of one provider call: a row-per-date table (possibly empty),
or a raised exception carrying its message string. -/
inductive FetchResult where
  | rows : List (SimpleDate × ℚ) → FetchResult
  | raises : String → FetchResult
  deriving DecidableEq

/-- The provider oracle: for each attempt index, what
`Ticker(t).history(...)` and `yf.download(...)` would return. -/
structure Provider where
  history : Nat → FetchResult
  download : Nat → FetchResult

/-- Observable events of one `load_data` run, in order: the two provider
calls with their `(ticker, start, end)` string arguments, `time.sleep`
delays (in seconds), and `st.warning` / `st.error` advisories. -/
inductive Event where
  | callHistory : String → String → String → Event
  | callDownload : String → String → String → Event
  | sleep : Nat → Event
  | warn : String → Event
  | error : String → Event
  deriving DecidableEq

/-- The success-path normalisation: keep the `Close` column, turn the
date index into a `YYYY-MM-DD` string column, round closes to 2 digits
(source lines 46–59). -/
def normalize (rs : List (SimpleDate × ℚ)) : List (String × ℚ) :=
  rs.map fun p => (formatDate p.1, round2 p.2)

/-- The `st.warning` f-string of the rate-limit retry branch. -/
def rateLimitWarnText (waitTime attemptNo maxRetries : Nat) : String :=
  "⏳ Yahoo Finance 速率限制，等待 " ++ toString waitTime ++
    " 秒後重試... (第 " ++ toString attemptNo ++ "/" ++
    toString maxRetries ++ " 次)"

/-- The `st.error` text of the exhausted rate-limit branch. -/
def rateLimitFinalText : String :=
  "❌ Yahoo Finance 速率限制，請稍後再試 (建議等待 1-2 分鐘)"

/-- The `st.error` f-string of the non-rate-limit branch; it embeds the
raw exception text. -/
def otherErrorText (m : String) : String :=
  "連線或抓取失敗，請檢查網路設定。原始錯誤: " ++ m

/-- Source line 65: an exception is treated as rate limiting exactly when
its text contains the substring "RateLimitError" or "Too Many Requests"
(Python's case-sensitive `in`). -/
def isRateLimitMsg (m : String) : Bool :=
  containsSubstr m "RateLimitError" || containsSubstr m "Too Many Requests"

/-- The body of the `try` block for one attempt (source lines 21–38):
call `history`; if it raises, the exception propagates; if it returns an
empty table, call `download` with the same arguments; the resulting table
or exception is returned together with the calls made. -/
def runAttempt (P : Provider) (i : Nat) (t sStr eStr : String) :
    FetchResult × List Event :=
  match P.history i with
  | .raises m => (.raises m, [.callHistory t sStr eStr])
  | .rows rs =>
    if rs.isEmpty then
      match P.download i with
      | .raises m =>
        (.raises m, [.callHistory t sStr eStr, .callDownload t sStr eStr])
      | .rows rs2 =>
        (.rows rs2, [.callHistory t sStr eStr, .callDownload t sStr eStr])
    else (.rows rs, [.callHistory t sStr eStr])

/-- The retry loop `for attempt in range(max_retries)` (source lines
19–78).  `fuel` is the number of loop iterations still available and
`attempt` the current value of the loop variable; `load_data` enters with
`fuel = maxRetries` and `attempt = 0`.  Running out of fuel is the fall
through to the final `return pd.DataFrame()` after the loop. -/
def loadLoop (P : Provider) (t sStr eStr : String) (maxRetries : Nat) :
    Nat → Nat → List (String × ℚ) × List Event
  | 0, _ => ([], [])
  | fuel + 1, attempt =>
    match runAttempt P attempt t sStr eStr with
    | (.rows rs, tr) =>
      if rs.isEmpty then
        if attempt < maxRetries - 1 then
          let r := loadLoop P t sStr eStr maxRetries fuel (attempt + 1)
          (r.1, tr ++ Event.sleep 2 :: r.2)
        else ([], tr)
      else (normalize rs, tr)
    | (.raises m, tr) =>
      if isRateLimitMsg m then
        if attempt < maxRetries - 1 then
          let w := (attempt + 1) * 3
          let r := loadLoop P t sStr eStr maxRetries fuel (attempt + 1)
          (r.1, tr ++ Event.warn (rateLimitWarnText w (attempt + 1) maxRetries)
                  :: Event.sleep w :: r.2)
        else ([], tr ++ [Event.error rateLimitFinalText])
      else ([], tr ++ [Event.error (otherErrorText m)])

/-- `load_data(ticker, start_date, end_date, max_retries)` (source lines
16–78; the Python default for `max_retries` is 3).  The end date is
shifted by one day before formatting, converting the inclusive query
range to the provider's half-open convention. -/
def load_data (P : Provider) (ticker : String) (startDate endDate : SimpleDate)
    (maxRetries : Nat) : List (String × ℚ) × List Event :=
  loadLoop P ticker (formatDate startDate) (formatDate (nextDay endDate))
    maxRetries maxRetries 0

/-- Number of attempts actually started: each attempt issues exactly one
`history` call first. -/
def attemptsMade : List Event → Nat
  | [] => 0
  | .callHistory _ _ _ :: tr => attemptsMade tr + 1
  | _ :: tr => attemptsMade tr

/-- The `time.sleep` delays of the run, in order. -/
def sleepsOf : List Event → List Nat
  | [] => []
  | .sleep n :: tr => n :: sleepsOf tr
  | _ :: tr => sleepsOf tr

/-- The `st.warning` texts of the run, in order. -/
def warnsOf : List Event → List String
  | [] => []
  | .warn m :: tr => m :: warnsOf tr
  | _ :: tr => warnsOf tr

/-- The `st.error` texts of the run, in order. -/
def errorsOf : List Event → List String
  | [] => []
  | .error m :: tr => m :: errorsOf tr
  | _ :: tr => errorsOf tr

/-- All user-visible advisories (warnings and errors) of the run, in
order. -/
def advisoriesOf : List Event → List String
  | [] => []
  | .warn m :: tr => m :: advisoriesOf tr
  | .error m :: tr => m :: advisoriesOf tr
  | _ :: tr => advisoriesOf tr

/-- The `end` string argument of a provider-call event, if any. -/
def callEndArg (ev : Event) : Option String :=
  match ev with
  | .callHistory _ _ e => some e
  | .callDownload _ _ e => some e
  | _ => none

/-! ### Concrete providers used as witnesses and counterexamples -/

/-- Provider whose two methods return an empty table at every attempt. -/
def providerAllEmpty : Provider := ⟨fun _ => .rows [], fun _ => .rows []⟩

/-- Provider whose primary method always raises "Too Many Requests". -/
def providerTooMany : Provider :=
  ⟨fun _ => .raises "Too Many Requests", fun _ => .rows []⟩

/-- Provider whose primary method always raises "boom". -/
def providerBoom : Provider := ⟨fun _ => .raises "boom", fun _ => .rows []⟩

/-- Provider with exactly one row: close `100.005` (= 20001/200) on
2024-01-02. -/
def providerC7 : Provider :=
  ⟨fun _ => .rows [(⟨2024, 1, 2⟩, 20001 / 200)], fun _ => .rows []⟩

/-- Provider whose primary method always raises an error whose text is
the lowercase phrase "rate limit". -/
def providerC9 : Provider := ⟨fun _ => .raises "rate limit", fun _ => .rows []⟩

/-- Provider with a single row (close 100) on 2024-01-02 at every
attempt. -/
def providerOneRow : Provider :=
  ⟨fun _ => .rows [(⟨2024, 1, 2⟩, 100)], fun _ => .rows []⟩

/-! ### Generic helper lemmas -/

theorem toList_append (a b : String) : (a ++ b).toList = a.toList ++ b.toList := by
  cases a
  cases b
  rfl

theorem strStartsWith_append (p r : List Char) :
    strStartsWith (p ++ r) p = true := by
  induction p with
  | nil => cases r <;> simp [strStartsWith]
  | cons h t ih => simp [strStartsWith, ih]

theorem strContains_any_nil (hay : List Char) : strContains hay [] = true := by
  cases hay <;> simp [strContains, strStartsWith, List.isEmpty]

theorem strContains_append_right (a b p : List Char)
    (h : strContains b p = true) : strContains (a ++ b) p = true := by
  induction a with
  | nil => simpa using h
  | cons x xs ih => simp [strContains, ih]

theorem strContains_self_append (p r : List Char) :
    strContains (p ++ r) p = true := by
  cases p with
  | nil => exact strContains_any_nil r
  | cons h t =>
    have hs := strStartsWith_append (h :: t) r
    simp only [List.cons_append] at hs
    simp [strContains, hs]

theorem strContains_self (p : List Char) : strContains p p = true := by
  have := strContains_self_append p []
  simpa using this

/-- A string contains any directly appended middle piece. -/
theorem containsSubstr_append_middle (a b c : String) :
    containsSubstr (a ++ (b ++ c)) b = true := by
  unfold containsSubstr
  rw [toList_append, toList_append]
  exact strContains_append_right _ _ _ (strContains_self_append _ _)

/-- A string contains its final appended piece. -/
theorem containsSubstr_append_self (a b : String) :
    containsSubstr (a ++ b) b = true := by
  unfold containsSubstr
  rw [toList_append]
  exact strContains_append_right _ _ _ (strContains_self _)

theorem attemptsMade_append (a b : List Event) :
    attemptsMade (a ++ b) = attemptsMade a + attemptsMade b := by
  induction a with
  | nil => simp [attemptsMade]
  | cons ev tr ih =>
    cases ev <;> simp [attemptsMade, ih, Nat.add_assoc, Nat.add_comm 1]

theorem sleepsOf_append (a b : List Event) :
    sleepsOf (a ++ b) = sleepsOf a ++ sleepsOf b := by
  induction a with
  | nil => simp [sleepsOf]
  | cons ev tr ih => cases ev <;> simp [sleepsOf, ih]

theorem warnsOf_append (a b : List Event) :
    warnsOf (a ++ b) = warnsOf a ++ warnsOf b := by
  induction a with
  | nil => simp [warnsOf]
  | cons ev tr ih => cases ev <;> simp [warnsOf, ih]

theorem errorsOf_append (a b : List Event) :
    errorsOf (a ++ b) = errorsOf a ++ errorsOf b := by
  induction a with
  | nil => simp [errorsOf]
  | cons ev tr ih => cases ev <;> simp [errorsOf, ih]

theorem advisoriesOf_append (a b : List Event) :
    advisoriesOf (a ++ b) = advisoriesOf a ++ advisoriesOf b := by
  induction a with
  | nil => simp [advisoriesOf]
  | cons ev tr ih => cases ev <;> simp [advisoriesOf, ih]

/-! ### Structural lemmas about the retry loop -/

theorem runAttempt_trace_head (P : Provider) (i : Nat) (t sS eS : String) :
    ∃ rest, (runAttempt P i t sS eS).2 = .callHistory t sS eS :: rest := by
  cases hh : P.history i with
  | raises m => exact ⟨[], by simp [runAttempt, hh]⟩
  | rows rs =>
    cases rs with
    | nil =>
      cases hd : P.download i <;>
        exact ⟨[.callDownload t sS eS], by simp [runAttempt, hh, hd]⟩
    | cons a l => exact ⟨[], by simp [runAttempt, hh]⟩

theorem loadLoop_trace_shape (P : Provider) (t sS eS : String)
    (mr fuel attempt : Nat) (hf : 1 ≤ fuel) :
    ∃ rest, (loadLoop P t sS eS mr fuel attempt).2 =
      (runAttempt P attempt t sS eS).2 ++ rest := by
  obtain ⟨f, rfl⟩ : ∃ f, fuel = f + 1 := ⟨fuel - 1, by omega⟩
  cases hres : runAttempt P attempt t sS eS with
  | mk res tr =>
    cases res with
    | rows rs =>
      by_cases he : rs.isEmpty
      · by_cases hlt : attempt < mr - 1
        · exact ⟨Event.sleep 2 :: (loadLoop P t sS eS mr f (attempt + 1)).2,
            by simp [loadLoop, hres, he, hlt]⟩
        · exact ⟨[], by simp [loadLoop, hres, he, hlt]⟩
      · exact ⟨[], by simp [loadLoop, hres, he]⟩
    | raises m =>
      by_cases hrl : isRateLimitMsg m
      · by_cases hlt : attempt < mr - 1
        · exact ⟨Event.warn (rateLimitWarnText ((attempt + 1) * 3) (attempt + 1) mr) ::
              Event.sleep ((attempt + 1) * 3) ::
                (loadLoop P t sS eS mr f (attempt + 1)).2,
            by simp [loadLoop, hres, hrl, hlt]⟩
        · exact ⟨[Event.error rateLimitFinalText],
            by simp [loadLoop, hres, hrl, hlt]⟩
      · exact ⟨[Event.error (otherErrorText m)], by simp [loadLoop, hres, hrl]⟩

theorem attemptsMade_loadLoop_pos (P : Provider) (t sS eS : String)
    (mr fuel attempt : Nat) (hf : 1 ≤ fuel) :
    1 ≤ attemptsMade (loadLoop P t sS eS mr fuel attempt).2 := by
  obtain ⟨rest, hres⟩ := loadLoop_trace_shape P t sS eS mr fuel attempt hf
  obtain ⟨rest2, hhead⟩ := runAttempt_trace_head P attempt t sS eS
  rw [hres, hhead, attemptsMade_append]
  simp [attemptsMade]
  omega

/-- When the primary call raises, the attempt makes only that call. -/
theorem runAttempt_hist_raises (P : Provider) (i : Nat) (t sS eS : String)
    (m : String) (hh : P.history i = .raises m) :
    runAttempt P i t sS eS = (.raises m, [.callHistory t sS eS]) := by
  simp [runAttempt, hh]

/-- When the primary call yields rows, the attempt stops at that call. -/
theorem runAttempt_hist_rows_ne (P : Provider) (i : Nat) (t sS eS : String)
    (rs : List (SimpleDate × ℚ)) (hh : P.history i = .rows rs)
    (hne : rs ≠ []) :
    runAttempt P i t sS eS = (.rows rs, [.callHistory t sS eS]) := by
  cases rs with
  | nil => exact absurd rfl hne
  | cons a l => simp [runAttempt, hh]

/-- When the primary call yields an empty table, the fallback is called
with the same arguments and its outcome is the attempt's outcome. -/
theorem runAttempt_hist_empty (P : Provider) (i : Nat) (t sS eS : String)
    (hh : P.history i = .rows []) :
    runAttempt P i t sS eS =
      (P.download i, [.callHistory t sS eS, .callDownload t sS eS]) := by
  cases hd : P.download i <;> simp [runAttempt, hh, hd]

/-- One loop step: both methods empty, attempts remain. -/
theorem loadLoop_step_empty_cont (P : Provider) (t sS eS : String)
    (mr f attempt : Nat) (tr : List Event)
    (hra : runAttempt P attempt t sS eS = (.rows [], tr))
    (hlt : attempt < mr - 1) :
    loadLoop P t sS eS mr (f + 1) attempt =
      ((loadLoop P t sS eS mr f (attempt + 1)).1,
        tr ++ Event.sleep 2 :: (loadLoop P t sS eS mr f (attempt + 1)).2) := by
  simp [loadLoop, hra, hlt]

/-- One loop step: both methods empty on the last attempt. -/
theorem loadLoop_step_empty_last (P : Provider) (t sS eS : String)
    (mr f attempt : Nat) (tr : List Event)
    (hra : runAttempt P attempt t sS eS = (.rows [], tr))
    (hnlt : ¬ attempt < mr - 1) :
    loadLoop P t sS eS mr (f + 1) attempt = ([], tr) := by
  simp [loadLoop, hra, hnlt]

/-- One loop step: some method yielded rows, so the attempt succeeds and
the normalised series is returned. -/
theorem loadLoop_step_success (P : Provider) (t sS eS : String)
    (mr f attempt : Nat) (tr : List Event) (rs : List (SimpleDate × ℚ))
    (hra : runAttempt P attempt t sS eS = (.rows rs, tr)) (hne : rs ≠ []) :
    loadLoop P t sS eS mr (f + 1) attempt = (normalize rs, tr) := by
  cases rs with
  | nil => exact absurd rfl hne
  | cons a l => simp [loadLoop, hra]

/-- One loop step: a rate-limited exception with attempts remaining. -/
theorem loadLoop_step_rl_cont (P : Provider) (t sS eS : String)
    (mr f attempt : Nat) (tr : List Event) (m : String)
    (hra : runAttempt P attempt t sS eS = (.raises m, tr))
    (hrl : isRateLimitMsg m = true) (hlt : attempt < mr - 1) :
    loadLoop P t sS eS mr (f + 1) attempt =
      ((loadLoop P t sS eS mr f (attempt + 1)).1,
        tr ++ Event.warn (rateLimitWarnText ((attempt + 1) * 3) (attempt + 1) mr)
          :: Event.sleep ((attempt + 1) * 3)
          :: (loadLoop P t sS eS mr f (attempt + 1)).2) := by
  simp [loadLoop, hra, hrl, hlt]

/-- One loop step: a rate-limited exception on the last attempt. -/
theorem loadLoop_step_rl_last (P : Provider) (t sS eS : String)
    (mr f attempt : Nat) (tr : List Event) (m : String)
    (hra : runAttempt P attempt t sS eS = (.raises m, tr))
    (hrl : isRateLimitMsg m = true) (hnlt : ¬ attempt < mr - 1) :
    loadLoop P t sS eS mr (f + 1) attempt =
      ([], tr ++ [Event.error rateLimitFinalText]) := by
  simp [loadLoop, hra, hrl, hnlt]

/-- One loop step: a non-rate-limited exception ends the call at once. -/
theorem loadLoop_step_other (P : Provider) (t sS eS : String)
    (mr f attempt : Nat) (tr : List Event) (m : String)
    (hra : runAttempt P attempt t sS eS = (.raises m, tr))
    (hnrl : isRateLimitMsg m = false) :
    loadLoop P t sS eS mr (f + 1) attempt =
      ([], tr ++ [Event.error (otherErrorText m)]) := by
  simp [loadLoop, hra, hnrl]

/-- In the scenario where both provider methods return an empty table at
every attempt, the loop returns an empty series after using all its fuel,
sleeping 2 seconds between consecutive attempts and emitting no
advisory. -/
theorem loadLoop_allEmpty (P : Provider) (t sS eS : String) (mr : Nat)
    (hP : ∀ i, P.history i = .rows [] ∧ P.download i = .rows []) :
    ∀ fuel attempt, attempt + fuel = mr → 1 ≤ fuel →
      (loadLoop P t sS eS mr fuel attempt).1 = [] ∧
      attemptsMade (loadLoop P t sS eS mr fuel attempt).2 = fuel ∧
      sleepsOf (loadLoop P t sS eS mr fuel attempt).2 =
        List.replicate (fuel - 1) 2 ∧
      advisoriesOf (loadLoop P t sS eS mr fuel attempt).2 = [] := by
  intro fuel
  induction fuel with
  | zero => intro attempt hsum h1; exact absurd h1 (by omega)
  | succ f ih =>
    intro attempt hsum _
    have hra := runAttempt_hist_empty P attempt t sS eS (hP attempt).1
    rw [(hP attempt).2] at hra
    by_cases hf : 1 ≤ f
    · obtain ⟨g, rfl⟩ : ∃ g, f = g + 1 := ⟨f - 1, by omega⟩
      have hlt : attempt < mr - 1 := by omega
      obtain ⟨ih1, ih2, ih3, ih4⟩ := ih (attempt + 1) (by omega) hf
      rw [loadLoop_step_empty_cont P t sS eS mr (g + 1) attempt _ hra hlt]
      refine ⟨ih1, ?_, ?_, ?_⟩ <;>
        simp [attemptsMade_append, sleepsOf_append, advisoriesOf_append,
          attemptsMade, sleepsOf, advisoriesOf, ih2, ih3, ih4,
          List.replicate_succ]
    · have hf0 : f = 0 := by omega
      subst hf0
      have hnlt : ¬ attempt < mr - 1 := by omega
      rw [loadLoop_step_empty_last P t sS eS mr 0 attempt _ hra hnlt]
      refine ⟨rfl, ?_, ?_, ?_⟩ <;>
        simp [attemptsMade, sleepsOf, advisoriesOf]

theorem range_succ_map_shift {α : Type} (g : Nat) (F : Nat → α) :
    (List.range (g + 1)).map F = F 0 :: (List.range g).map (fun k => F (k + 1)) := by
  rw [List.range_succ_eq_map, List.map_cons, List.map_map]
  rfl

/-- The retry warning names the wait time. -/
theorem rateLimitWarnText_contains_wait (w a r : Nat) :
    containsSubstr (rateLimitWarnText w a r) (toString w) = true := by
  unfold rateLimitWarnText containsSubstr
  simp only [toList_append, List.append_assoc]
  exact strContains_append_right _ _ _ (strContains_self_append _ _)

/-- The retry warning names the attempt number. -/
theorem rateLimitWarnText_contains_attempt (w a r : Nat) :
    containsSubstr (rateLimitWarnText w a r) (toString a) = true := by
  unfold rateLimitWarnText containsSubstr
  simp only [toList_append, List.append_assoc]
  exact strContains_append_right _ _ _ (strContains_append_right _ _ _
    (strContains_append_right _ _ _ (strContains_self_append _ _)))

/-- In the scenario where the primary call raises a rate-limit-classified
exception at every attempt, the loop uses all its fuel, backs off
`(attempt + 1) * 3` seconds between consecutive attempts, warns once per
retry, errors once on exhaustion, and returns an empty series. -/
theorem loadLoop_allRateLimited (P : Provider) (t sS eS : String) (mr : Nat)
    (m : Nat → String)
    (hh : ∀ i, P.history i = .raises (m i))
    (hrl : ∀ i, isRateLimitMsg (m i) = true) :
    ∀ fuel attempt, attempt + fuel = mr → 1 ≤ fuel →
      (loadLoop P t sS eS mr fuel attempt).1 = [] ∧
      attemptsMade (loadLoop P t sS eS mr fuel attempt).2 = fuel ∧
      sleepsOf (loadLoop P t sS eS mr fuel attempt).2 =
        (List.range (fuel - 1)).map (fun k => (attempt + 1 + k) * 3) ∧
      warnsOf (loadLoop P t sS eS mr fuel attempt).2 =
        (List.range (fuel - 1)).map
          (fun k => rateLimitWarnText ((attempt + 1 + k) * 3) (attempt + 1 + k) mr) ∧
      errorsOf (loadLoop P t sS eS mr fuel attempt).2 = [rateLimitFinalText] := by
  intro fuel
  induction fuel with
  | zero => intro attempt _ h1; exact absurd h1 (by omega)
  | succ f ih =>
    intro attempt hsum _
    have hra := runAttempt_hist_raises P attempt t sS eS (m attempt) (hh attempt)
    by_cases hf : 1 ≤ f
    · obtain ⟨g, rfl⟩ : ∃ g, f = g + 1 := ⟨f - 1, by omega⟩
      have hlt : attempt < mr - 1 := by omega
      obtain ⟨ih1, ih2, ih3, ih4, ih5⟩ := ih (attempt + 1) (by omega) hf
      rw [loadLoop_step_rl_cont P t sS eS mr (g + 1) attempt _ (m attempt)
        hra (hrl attempt) hlt]
      refine ⟨ih1, ?_, ?_, ?_, ?_⟩
      · simp [attemptsMade_append, attemptsMade, ih2]
      · simp only [sleepsOf_append, sleepsOf, ih3]
        simp only [Nat.add_sub_cancel]
        rw [range_succ_map_shift g (fun k => (attempt + 1 + k) * 3)]
        refine List.cons_eq_cons.mpr ⟨by omega, List.map_congr_left ?_⟩
        intro k _
        omega
      · simp only [warnsOf_append, warnsOf, ih4]
        simp only [Nat.add_sub_cancel]
        rw [range_succ_map_shift g
          (fun k => rateLimitWarnText ((attempt + 1 + k) * 3) (attempt + 1 + k) mr)]
        refine List.cons_eq_cons.mpr ⟨by norm_num, List.map_congr_left ?_⟩
        intro k _
        have h1 : attempt + 1 + (k + 1) = attempt + 1 + 1 + k := by omega
        rw [h1]
      · simp [errorsOf_append, errorsOf, ih5]
    · have hf0 : f = 0 := by omega
      subst hf0
      have hnlt : ¬ attempt < mr - 1 := by omega
      rw [loadLoop_step_rl_last P t sS eS mr 0 attempt _ (m attempt)
        hra (hrl attempt) hnlt]
      refine ⟨rfl, ?_, ?_, ?_, ?_⟩ <;>
        simp [attemptsMade, sleepsOf, warnsOf, errorsOf]

/-! ### The claims -/

/-- C2: if the provider returns zero rows from both methods on every
attempt, `load_data` returns an empty series (the embedding is a total
function, so no exception escapes), performing exactly `max_retries`
attempts with exactly `max_retries - 1` inter-attempt delays of 2 seconds
each, and emitting no advisory. -/
theorem c2_all_empty (P : Provider) (t : String) (s e : SimpleDate) (mr : Nat)
    (hP : ∀ i, P.history i = .rows [] ∧ P.download i = .rows [])
    (hmr : 1 ≤ mr) :
    (load_data P t s e mr).1 = [] ∧
    attemptsMade (load_data P t s e mr).2 = mr ∧
    sleepsOf (load_data P t s e mr).2 = List.replicate (mr - 1) 2 ∧
    advisoriesOf (load_data P t s e mr).2 = [] := by
  unfold load_data
  exact loadLoop_allEmpty P t (formatDate s) (formatDate (nextDay e)) mr hP
    mr 0 (by omega) hmr

/-- Witness for C2 at `max_retries = 3`: 3 attempts, 2 fixed delays. -/
theorem c2_all_empty_witness :
    (∀ i : Nat, providerAllEmpty.history i = .rows [] ∧
      providerAllEmpty.download i = .rows []) ∧ 1 ≤ 3 ∧
    ((load_data providerAllEmpty "T" ⟨2024, 1, 2⟩ ⟨2024, 1, 3⟩ 3).1 = [] ∧
     attemptsMade (load_data providerAllEmpty "T" ⟨2024, 1, 2⟩ ⟨2024, 1, 3⟩ 3).2 = 3 ∧
     sleepsOf (load_data providerAllEmpty "T" ⟨2024, 1, 2⟩ ⟨2024, 1, 3⟩ 3).2 =
       List.replicate 2 2 ∧
     advisoriesOf (load_data providerAllEmpty "T" ⟨2024, 1, 2⟩ ⟨2024, 1, 3⟩ 3).2 = []) :=
  ⟨fun _ => ⟨rfl, rfl⟩, by omega,
    c2_all_empty providerAllEmpty "T" ⟨2024, 1, 2⟩ ⟨2024, 1, 3⟩ 3
      (fun _ => ⟨rfl, rfl⟩) (by omega)⟩

/-- C3: if the provider raises a rate-limit-classified error on every
attempt, `load_data` performs exactly `max_retries` attempts, sleeps
`(i + 1) * 3` seconds after attempt `i` for each non-final attempt
(3, 6, 9, ...), emits exactly one warning per retry — a warning that
names the attempt number and the wait time — plus one final error on
exhaustion, and returns an empty series. -/
theorem c3_all_rate_limited (P : Provider) (m : Nat → String) (t : String)
    (s e : SimpleDate) (mr : Nat)
    (hh : ∀ i, P.history i = .raises (m i))
    (hrl : ∀ i, isRateLimitMsg (m i) = true) (hmr : 1 ≤ mr) :
    (load_data P t s e mr).1 = [] ∧
    attemptsMade (load_data P t s e mr).2 = mr ∧
    sleepsOf (load_data P t s e mr).2 =
      (List.range (mr - 1)).map (fun i => (i + 1) * 3) ∧
    warnsOf (load_data P t s e mr).2 =
      (List.range (mr - 1)).map
        (fun i => rateLimitWarnText ((i + 1) * 3) (i + 1) mr) ∧
    (∀ w ∈ warnsOf (load_data P t s e mr).2, ∃ i,
      w = rateLimitWarnText ((i + 1) * 3) (i + 1) mr ∧
      containsSubstr w (toString ((i + 1) * 3)) = true ∧
      containsSubstr w (toString (i + 1)) = true) ∧
    errorsOf (load_data P t s e mr).2 = [rateLimitFinalText] := by
  unfold load_data
  obtain ⟨h1, h2, h3, h4, h5⟩ := loadLoop_allRateLimited P t (formatDate s)
    (formatDate (nextDay e)) mr m hh hrl mr 0 (by omega) hmr
  have e3 : (List.range (mr - 1)).map (fun k => (0 + 1 + k) * 3) =
      (List.range (mr - 1)).map (fun i => (i + 1) * 3) :=
    List.map_congr_left fun k _ => by omega
  have e4 : (List.range (mr - 1)).map
        (fun k => rateLimitWarnText ((0 + 1 + k) * 3) (0 + 1 + k) mr) =
      (List.range (mr - 1)).map
        (fun i => rateLimitWarnText ((i + 1) * 3) (i + 1) mr) :=
    List.map_congr_left fun k _ => by
      have hk : 0 + 1 + k = k + 1 := by omega
      rw [hk]
  refine ⟨h1, h2, e3 ▸ h3, e4 ▸ h4, ?_, h5⟩
  intro w hw
  rw [h4, e4] at hw
  obtain ⟨i, _, rfl⟩ := List.mem_map.mp hw
  exact ⟨i, rfl, rateLimitWarnText_contains_wait _ _ _,
    rateLimitWarnText_contains_attempt _ _ _⟩

/-- Witness for C3 at `max_retries = 2`: 2 attempts, one 3-second backoff,
one retry warning, one final error. -/
theorem c3_all_rate_limited_witness :
    (∀ i : Nat, providerTooMany.history i = .raises "Too Many Requests") ∧
    (Nat → isRateLimitMsg "Too Many Requests" = true) ∧ 1 ≤ 2 ∧
    ((load_data providerTooMany "T" ⟨2024, 1, 2⟩ ⟨2024, 1, 3⟩ 2).1 = [] ∧
     attemptsMade (load_data providerTooMany "T" ⟨2024, 1, 2⟩ ⟨2024, 1, 3⟩ 2).2 = 2 ∧
     sleepsOf (load_data providerTooMany "T" ⟨2024, 1, 2⟩ ⟨2024, 1, 3⟩ 2).2 =
       (List.range 1).map (fun i => (i + 1) * 3) ∧
     warnsOf (load_data providerTooMany "T" ⟨2024, 1, 2⟩ ⟨2024, 1, 3⟩ 2).2 =
       (List.range 1).map (fun i => rateLimitWarnText ((i + 1) * 3) (i + 1) 2) ∧
     (∀ w ∈ warnsOf (load_data providerTooMany "T" ⟨2024, 1, 2⟩ ⟨2024, 1, 3⟩ 2).2, ∃ i,
       w = rateLimitWarnText ((i + 1) * 3) (i + 1) 2 ∧
       containsSubstr w (toString ((i + 1) * 3)) = true ∧
       containsSubstr w (toString (i + 1)) = true) ∧
     errorsOf (load_data providerTooMany "T" ⟨2024, 1, 2⟩ ⟨2024, 1, 3⟩ 2).2 =
       [rateLimitFinalText]) :=
  ⟨fun _ => rfl, by intro _; decide, by omega,
    c3_all_rate_limited providerTooMany (fun _ => "Too Many Requests") "T"
      ⟨2024, 1, 2⟩ ⟨2024, 1, 3⟩ 2 (fun _ => rfl)
      (by intro _; show isRateLimitMsg "Too Many Requests" = true; decide)
      (by omega)⟩

/-- C4: if the first attempt raises an error not classified as rate
limiting (whether from the primary or, after an empty primary result,
from the fallback), `load_data` returns an empty series after exactly one
attempt, with no delay, emitting exactly one advisory, and that advisory
contains the original error text. -/
theorem c4_other_error (P : Provider) (m t : String) (s e : SimpleDate)
    (mr : Nat)
    (hcase : P.history 0 = .raises m ∨
      (P.history 0 = .rows [] ∧ P.download 0 = .raises m))
    (hnrl : isRateLimitMsg m = false) (hmr : 1 ≤ mr) :
    (load_data P t s e mr).1 = [] ∧
    attemptsMade (load_data P t s e mr).2 = 1 ∧
    sleepsOf (load_data P t s e mr).2 = [] ∧
    advisoriesOf (load_data P t s e mr).2 = [otherErrorText m] ∧
    containsSubstr (otherErrorText m) m = true := by
  have hcont : containsSubstr (otherErrorText m) m = true := by
    unfold otherErrorText
    exact containsSubstr_append_self _ _
  obtain ⟨f, rfl⟩ : ∃ f, mr = f + 1 := ⟨mr - 1, by omega⟩
  unfold load_data
  rcases hcase with hh | ⟨hh, hd⟩
  · rw [loadLoop_step_other P t (formatDate s) (formatDate (nextDay e))
      (f + 1) f 0 _ m (runAttempt_hist_raises P 0 t _ _ m hh) hnrl]
    exact ⟨rfl, by simp [attemptsMade_append, attemptsMade],
      by simp [sleepsOf_append, sleepsOf],
      by simp [advisoriesOf_append, advisoriesOf], hcont⟩
  · have hra := runAttempt_hist_empty P 0 t (formatDate s)
      (formatDate (nextDay e)) hh
    rw [hd] at hra
    rw [loadLoop_step_other P t (formatDate s) (formatDate (nextDay e))
      (f + 1) f 0 _ m hra hnrl]
    exact ⟨rfl, by simp [attemptsMade_append, attemptsMade],
      by simp [sleepsOf_append, sleepsOf],
      by simp [advisoriesOf_append, advisoriesOf], hcont⟩

/-- Witness for C4: a provider raising "boom" on the first attempt. -/
theorem c4_other_error_witness :
    (providerBoom.history 0 = .raises "boom" ∨
      (providerBoom.history 0 = .rows [] ∧
        providerBoom.download 0 = .raises "boom")) ∧
    isRateLimitMsg "boom" = false ∧ 1 ≤ 3 ∧
    ((load_data providerBoom "T" ⟨2024, 1, 2⟩ ⟨2024, 1, 3⟩ 3).1 = [] ∧
     attemptsMade (load_data providerBoom "T" ⟨2024, 1, 2⟩ ⟨2024, 1, 3⟩ 3).2 = 1 ∧
     sleepsOf (load_data providerBoom "T" ⟨2024, 1, 2⟩ ⟨2024, 1, 3⟩ 3).2 = [] ∧
     advisoriesOf (load_data providerBoom "T" ⟨2024, 1, 2⟩ ⟨2024, 1, 3⟩ 3).2 =
       [otherErrorText "boom"] ∧
     containsSubstr (otherErrorText "boom") "boom" = true) :=
  ⟨Or.inl rfl, by decide, by omega,
    c4_other_error providerBoom "boom" "T" ⟨2024, 1, 2⟩ ⟨2024, 1, 3⟩ 3
      (Or.inl rfl) (by decide) (by omega)⟩

/-- C10: with `max_retries = 0` the loop body never runs: `load_data`
returns an empty series with an empty event trace — no provider call, no
delay, no advisory. -/
theorem c10_zero_retries (P : Provider) (t : String) (s e : SimpleDate) :
    load_data P t s e 0 = ([], []) := rfl

/-- C7 counterexample: with exactly one close of `100.005` (= 20001/200)
on 2024-01-02, the returned close is NOT `100.01` (= 10001/100): pandas
`round` rounds ties to even (and the float64 nearest to 100.005 is in
fact slightly below the tie), so the half is not rounded up. -/
theorem c7_round_half_cx :
    (load_data providerC7 "TEST" ⟨2024, 1, 2⟩ ⟨2024, 1, 2⟩ 3).1 ≠
      [("2024-01-02", 10001 / 100)] := by
  have hr : round2 (20001 / 200) = 100 := by
    unfold round2 rintQ
    norm_num
  have hv : (load_data providerC7 "TEST" ⟨2024, 1, 2⟩ ⟨2024, 1, 2⟩ 3).1 =
      [("2024-01-02", 100)] := by
    simp [load_data, loadLoop, runAttempt, providerC7, normalize, hr]
    decide
  rw [hv]
  intro hcontra
  rw [List.cons_eq_cons] at hcontra
  have : (100 : ℚ) = 10001 / 100 := congrArg Prod.snd hcontra.1
  norm_num at this

/-- C7 amended: close values are rounded to 2 fractional digits with ties
going to the even hundredth, so the query of the claim returns the series
`[("2024-01-02", 100.00)]`. -/
theorem c7_round_half_amended :
    (load_data providerC7 "TEST" ⟨2024, 1, 2⟩ ⟨2024, 1, 2⟩ 3).1 =
      [("2024-01-02", 100)] := by
  have hr : round2 (20001 / 200) = 100 := by
    unfold round2 rintQ
    norm_num
  simp [load_data, loadLoop, runAttempt, providerC7, normalize, hr]
  decide

/-- C9 counterexample: the error text "rate limit" contains the claimed
indicator "rate limit", yet the code does not classify it as rate
limited (the code matches "RateLimitError" / "Too Many Requests",
case-sensitively), and such an error is not retried: one attempt, no
delay. -/
theorem c9_classification_cx :
    containsSubstr "rate limit" "rate limit" = true ∧
    isRateLimitMsg "rate limit" = false ∧
    attemptsMade (load_data providerC9 "T" ⟨2024, 1, 2⟩ ⟨2024, 1, 2⟩ 3).2 = 1 ∧
    sleepsOf (load_data providerC9 "T" ⟨2024, 1, 2⟩ ⟨2024, 1, 2⟩ 3).2 = [] := by
  decide

/-- C9 amended: an error raised on the first attempt leads to a retry
(a second attempt happens) exactly when its text contains
"RateLimitError" or "Too Many Requests" as a case-sensitive substring;
all other error texts end the call after the first attempt. -/
theorem c9_classification_amended (P : Provider) (m t : String)
    (s e : SimpleDate) (mr : Nat) (hh : P.history 0 = .raises m)
    (hmr : 2 ≤ mr) :
    2 ≤ attemptsMade (load_data P t s e mr).2 ↔
      (containsSubstr m "RateLimitError" = true ∨
        containsSubstr m "Too Many Requests" = true) := by
  obtain ⟨f, rfl⟩ : ∃ f, mr = f + 2 := ⟨mr - 2, by omega⟩
  unfold load_data
  have hra := runAttempt_hist_raises P 0 t (formatDate s)
    (formatDate (nextDay e)) m hh
  cases hcl : isRateLimitMsg m with
  | false =>
    rw [show f + 2 = (f + 1) + 1 from rfl]
    rw [loadLoop_step_other P t (formatDate s) (formatDate (nextDay e))
      (f + 1 + 1) (f + 1) 0 _ m hra hcl]
    unfold isRateLimitMsg at hcl
    rw [Bool.or_eq_false_iff] at hcl
    simp [attemptsMade_append, attemptsMade, hcl.1, hcl.2]
  | true =>
    rw [show f + 2 = (f + 1) + 1 from rfl]
    rw [loadLoop_step_rl_cont P t (formatDate s) (formatDate (nextDay e))
      (f + 1 + 1) (f + 1) 0 _ m hra hcl (by omega)]
    have hpos := attemptsMade_loadLoop_pos P t (formatDate s)
      (formatDate (nextDay e)) (f + 1 + 1) (f + 1) 1 (by omega)
    unfold isRateLimitMsg at hcl
    rw [Bool.or_eq_true] at hcl
    simp only [attemptsMade_append, attemptsMade, Nat.zero_add]
    constructor
    · intro _
      exact hcl
    · intro _
      omega

/-- Witness for the amended C9: an error text containing
"Too Many Requests" is retried (at least two attempts happen). -/
theorem c9_classification_amended_witness :
    providerTooMany.history 0 = .raises "Too Many Requests" ∧ 2 ≤ 2 ∧
    2 ≤ attemptsMade (load_data providerTooMany "T" ⟨2024, 1, 2⟩ ⟨2024, 1, 3⟩ 2).2 :=
  ⟨rfl, by omega,
    (c9_classification_amended providerTooMany "Too Many Requests" "T"
      ⟨2024, 1, 2⟩ ⟨2024, 1, 3⟩ 2 rfl (by omega)).mpr (Or.inr (by decide))⟩

/-- Every event of a single attempt is one of the two provider calls,
and both carry the attempt's `(ticker, start, end)` arguments. -/
theorem runAttempt_mem (P : Provider) (i : Nat) (t sS eS : String)
    (ev : Event) (hev : ev ∈ (runAttempt P i t sS eS).2) :
    ev = .callHistory t sS eS ∨ ev = .callDownload t sS eS := by
  cases hh : P.history i with
  | raises m =>
    rw [runAttempt_hist_raises P i t sS eS m hh] at hev
    simp at hev
    exact Or.inl hev
  | rows rs =>
    cases rs with
    | nil =>
      rw [runAttempt_hist_empty P i t sS eS hh] at hev
      simpa using hev
    | cons a l =>
      rw [runAttempt_hist_rows_ne P i t sS eS (a :: l) hh (by simp)] at hev
      simp at hev
      exact Or.inl hev

/-- Invariant carried by every event of the loop's trace: it suffices
that the property holds of every event any attempt can emit and of every
sleep, warning and error event. -/
theorem loadLoop_mem_invariant (P : Provider) (t sS eS : String) (mr : Nat)
    (Q : Event → Prop)
    (hAttempt : ∀ i ev, ev ∈ (runAttempt P i t sS eS).2 → Q ev)
    (hSleep : ∀ n, Q (.sleep n)) (hWarn : ∀ m, Q (.warn m))
    (hErr : ∀ m, Q (.error m)) :
    ∀ fuel attempt ev, ev ∈ (loadLoop P t sS eS mr fuel attempt).2 → Q ev := by
  intro fuel
  induction fuel with
  | zero =>
    intro attempt ev hev
    simp [loadLoop] at hev
  | succ f ih =>
    intro attempt ev hev
    cases hres : runAttempt P attempt t sS eS with
    | mk res tr =>
      have htr : ∀ e2 ∈ tr, Q e2 := fun e2 he2 =>
        hAttempt attempt e2 (by rw [hres]; exact he2)
      cases res with
      | rows rs =>
        by_cases he : rs.isEmpty
        · by_cases hlt : attempt < mr - 1
          · rw [loadLoop_step_empty_cont P t sS eS mr f attempt tr
              (by rw [hres, List.isEmpty_iff.mp he]) hlt] at hev
            simp only [List.mem_append, List.mem_cons] at hev
            rcases hev with h | h | h
            · exact htr ev h
            · exact h ▸ hSleep 2
            · exact ih (attempt + 1) ev h
          · rw [loadLoop_step_empty_last P t sS eS mr f attempt tr
              (by rw [hres, List.isEmpty_iff.mp he]) hlt] at hev
            exact htr ev hev
        · rw [loadLoop_step_success P t sS eS mr f attempt tr rs hres
            (by simpa using he)] at hev
          exact htr ev hev
      | raises m =>
        by_cases hrl : isRateLimitMsg m = true
        · by_cases hlt : attempt < mr - 1
          · rw [loadLoop_step_rl_cont P t sS eS mr f attempt tr m hres hrl
              hlt] at hev
            simp only [List.mem_append, List.mem_cons] at hev
            rcases hev with h | h | h | h
            · exact htr ev h
            · exact h ▸ hWarn _
            · exact h ▸ hSleep _
            · exact ih (attempt + 1) ev h
          · rw [loadLoop_step_rl_last P t sS eS mr f attempt tr m hres hrl
              hlt] at hev
            simp only [List.mem_append, List.mem_singleton] at hev
            rcases hev with h | h
            · exact htr ev h
            · exact h ▸ hErr _
        · rw [loadLoop_step_other P t sS eS mr f attempt tr m hres
            (by simpa using hrl)] at hev
          simp only [List.mem_append, List.mem_singleton] at hev
          rcases hev with h | h
          · exact htr ev h
          · exact h ▸ hErr _

/-- Rows returned by an attempt come from one of the two methods at that
attempt index. -/
theorem runAttempt_rows_src (P : Provider) (i : Nat) (t sS eS : String)
    (rs : List (SimpleDate × ℚ)) (tr : List Event)
    (h : runAttempt P i t sS eS = (.rows rs, tr)) :
    P.history i = .rows rs ∨ P.download i = .rows rs := by
  cases hh : P.history i with
  | raises m =>
    rw [runAttempt_hist_raises P i t sS eS m hh] at h
    exact absurd (congrArg Prod.fst h) (by simp)
  | rows rs0 =>
    cases rs0 with
    | nil =>
      rw [runAttempt_hist_empty P i t sS eS hh] at h
      exact Or.inr (congrArg Prod.fst h)
    | cons a l =>
      rw [runAttempt_hist_rows_ne P i t sS eS (a :: l) hh (by simp)] at h
      have hfst := congrArg Prod.fst h
      simp only at hfst
      exact Or.inl hfst

/-- C5: the end bound handed to the provider is always the formatted
`end_date + 1 day` — every provider-call event (history or download) in
the trace carries `formatDate (nextDay endDate)` as its `end` argument,
and (when at least one attempt happens) the primary call with exactly
these arguments is in the trace. -/
theorem c5_end_plus_one (P : Provider) (t : String) (s e : SimpleDate)
    (mr : Nat) :
    (∀ ev ∈ (load_data P t s e mr).2, ∀ x, callEndArg ev = some x →
      x = formatDate (nextDay e)) ∧
    (1 ≤ mr → Event.callHistory t (formatDate s) (formatDate (nextDay e)) ∈
      (load_data P t s e mr).2) := by
  constructor
  · intro ev hev x hx
    have hQ := loadLoop_mem_invariant P t (formatDate s)
      (formatDate (nextDay e)) mr
      (fun ev2 => ∀ y, callEndArg ev2 = some y → y = formatDate (nextDay e))
      (fun i ev2 hev2 => by
        rcases runAttempt_mem P i t (formatDate s) (formatDate (nextDay e))
          ev2 hev2 with h | h <;>
          (subst h; intro y hy; simpa [callEndArg] using hy.symm))
      (fun n y hy => by simp [callEndArg] at hy)
      (fun m2 y hy => by simp [callEndArg] at hy)
      (fun m2 y hy => by simp [callEndArg] at hy)
      mr 0 ev hev
    exact hQ x hx
  · intro hmr
    obtain ⟨rest, hsh⟩ := loadLoop_trace_shape P t (formatDate s)
      (formatDate (nextDay e)) mr mr 0 hmr
    obtain ⟨rest2, hhd⟩ := runAttempt_trace_head P 0 t (formatDate s)
      (formatDate (nextDay e))
    unfold load_data
    rw [hsh, hhd]
    simp

/-- Witness for C5: with a provider that fails at once and the query
range 2024-01-02 .. 2024-01-02, the primary call carries the end string
"2024-01-03" and that is `formatDate (nextDay end)`. -/
theorem c5_end_plus_one_witness :
    Event.callHistory "T" "2024-01-02" "2024-01-03" ∈
      (load_data providerBoom "T" ⟨2024, 1, 2⟩ ⟨2024, 1, 2⟩ 1).2 ∧
    "2024-01-03" = formatDate (nextDay ⟨2024, 1, 2⟩) :=
  ⟨by decide,
    (c5_end_plus_one providerBoom "T" ⟨2024, 1, 2⟩ ⟨2024, 1, 2⟩ 1).1
      (Event.callHistory "T" "2024-01-02" "2024-01-03") (by decide)
      "2024-01-03" rfl⟩

/-- C6: within one attempt, the primary `history` call always comes
first; the `download` fallback is issued — with the same ticker and the
same date window — exactly when the primary yielded an empty table, and
no sleep separates the two calls (an attempt's trace holds no sleep
event at all). -/
theorem c6_fallback_order (P : Provider) (t sS eS : String)
    (mr fuel i : Nat) (hf : 1 ≤ fuel) :
    (∃ rest, (loadLoop P t sS eS mr fuel i).2 =
      (runAttempt P i t sS eS).2 ++ rest) ∧
    (runAttempt P i t sS eS).2.head? = some (.callHistory t sS eS) ∧
    ((runAttempt P i t sS eS).2 =
        [.callHistory t sS eS, .callDownload t sS eS] ↔
      P.history i = .rows []) ∧
    (P.history i ≠ .rows [] →
      (runAttempt P i t sS eS).2 = [.callHistory t sS eS]) ∧
    (∀ n, Event.sleep n ∉ (runAttempt P i t sS eS).2) := by
  refine ⟨loadLoop_trace_shape P t sS eS mr fuel i hf, ?_, ?_, ?_, ?_⟩
  · obtain ⟨rest2, hhd⟩ := runAttempt_trace_head P i t sS eS
    rw [hhd]
    rfl
  · constructor
    · intro htr
      cases hh : P.history i with
      | raises m =>
        rw [runAttempt_hist_raises P i t sS eS m hh] at htr
        simp at htr
      | rows rs =>
        cases rs with
        | nil => rfl
        | cons a l =>
          rw [runAttempt_hist_rows_ne P i t sS eS (a :: l) hh (by simp)] at htr
          simp at htr
    · intro hh
      rw [runAttempt_hist_empty P i t sS eS hh]
  · intro hh
    cases hh2 : P.history i with
    | raises m => exact congrArg Prod.snd (runAttempt_hist_raises P i t sS eS m hh2)
    | rows rs =>
      cases rs with
      | nil => exact absurd hh2 hh
      | cons a l =>
        exact congrArg Prod.snd (runAttempt_hist_rows_ne P i t sS eS (a :: l) hh2 (by simp))
  · intro n hn
    rcases runAttempt_mem P i t sS eS (Event.sleep n) hn with h | h <;> simp at h

/-- Witness for C6 with a provider whose primary yields an empty table:
the fallback call is present right after the primary call. -/
theorem c6_fallback_order_witness :
    1 ≤ 1 ∧
    ((∃ rest, (loadLoop providerAllEmpty "T" "A" "B" 1 1 0).2 =
      (runAttempt providerAllEmpty 0 "T" "A" "B").2 ++ rest) ∧
    (runAttempt providerAllEmpty 0 "T" "A" "B").2.head? =
      some (.callHistory "T" "A" "B") ∧
    ((runAttempt providerAllEmpty 0 "T" "A" "B").2 =
        [.callHistory "T" "A" "B", .callDownload "T" "A" "B"] ↔
      providerAllEmpty.history 0 = .rows []) ∧
    (providerAllEmpty.history 0 ≠ .rows [] →
      (runAttempt providerAllEmpty 0 "T" "A" "B").2 =
        [.callHistory "T" "A" "B"]) ∧
    (∀ n, Event.sleep n ∉ (runAttempt providerAllEmpty 0 "T" "A" "B").2)) :=
  ⟨by omega, c6_fallback_order providerAllEmpty "T" "A" "B" 1 1 0 (by omega)⟩

/-- C8: the retrieval routine is a total function — for every provider
behaviour it terminates with a series — and the only outcomes are an
empty series or the normalisation of a non-empty row table delivered by
one of the two provider methods.  No exception construct exists in the
embedding's result type: all provider exceptions are consumed by the
loop. -/
theorem c8_no_escape (P : Provider) (t : String) (s e : SimpleDate)
    (mr : Nat) :
    (load_data P t s e mr).1 = [] ∨
    ∃ rs, rs ≠ [] ∧
      (∃ i, P.history i = .rows rs ∨ P.download i = .rows rs) ∧
      (load_data P t s e mr).1 = normalize rs := by
  unfold load_data
  have key : ∀ fuel attempt,
      (loadLoop P t (formatDate s) (formatDate (nextDay e)) mr fuel attempt).1 = [] ∨
      ∃ rs, rs ≠ [] ∧
        (∃ i, P.history i = .rows rs ∨ P.download i = .rows rs) ∧
        (loadLoop P t (formatDate s) (formatDate (nextDay e)) mr fuel attempt).1 =
          normalize rs := by
    intro fuel
    induction fuel with
    | zero => intro attempt; exact Or.inl rfl
    | succ f ih =>
      intro attempt
      cases hres : runAttempt P attempt t (formatDate s) (formatDate (nextDay e)) with
      | mk res tr =>
        cases res with
        | rows rs =>
          by_cases he : rs.isEmpty
          · by_cases hlt : attempt < mr - 1
            · rw [loadLoop_step_empty_cont P t (formatDate s)
                (formatDate (nextDay e)) mr f attempt tr
                (by rw [hres, List.isEmpty_iff.mp he]) hlt]
              exact ih (attempt + 1)
            · rw [loadLoop_step_empty_last P t (formatDate s)
                (formatDate (nextDay e)) mr f attempt tr
                (by rw [hres, List.isEmpty_iff.mp he]) hlt]
              exact Or.inl rfl
          · rw [loadLoop_step_success P t (formatDate s)
              (formatDate (nextDay e)) mr f attempt tr rs hres
              (by simpa using he)]
            exact Or.inr ⟨rs, by simpa using he,
              ⟨attempt, runAttempt_rows_src P attempt t (formatDate s)
                (formatDate (nextDay e)) rs tr hres⟩, rfl⟩
        | raises m =>
          by_cases hrl : isRateLimitMsg m = true
          · by_cases hlt : attempt < mr - 1
            · rw [loadLoop_step_rl_cont P t (formatDate s)
                (formatDate (nextDay e)) mr f attempt tr m hres hrl hlt]
              exact ih (attempt + 1)
            · rw [loadLoop_step_rl_last P t (formatDate s)
                (formatDate (nextDay e)) mr f attempt tr m hres hrl hlt]
              exact Or.inl rfl
          · rw [loadLoop_step_other P t (formatDate s)
              (formatDate (nextDay e)) mr f attempt tr m hres
              (by simpa using hrl)]
            exact Or.inl rfl
  exact key mr 0

theorem digitChar_isDigit : ∀ k, k < 10 → (digitChar k).isDigit = true := by
  decide

/-- Every string `formatDate` produces has the `YYYY-MM-DD` shape. -/
theorem isYYYYMMDD_formatDate (d : SimpleDate) :
    isYYYYMMDD (formatDate d) = true := by
  have h1 := digitChar_isDigit (d.year / 1000 % 10) (Nat.mod_lt _ (by omega))
  have h2 := digitChar_isDigit (d.year / 100 % 10) (Nat.mod_lt _ (by omega))
  have h3 := digitChar_isDigit (d.year / 10 % 10) (Nat.mod_lt _ (by omega))
  have h4 := digitChar_isDigit (d.year % 10) (Nat.mod_lt _ (by omega))
  have h5 := digitChar_isDigit (d.month / 10 % 10) (Nat.mod_lt _ (by omega))
  have h6 := digitChar_isDigit (d.month % 10) (Nat.mod_lt _ (by omega))
  have h7 := digitChar_isDigit (d.day / 10 % 10) (Nat.mod_lt _ (by omega))
  have h8 := digitChar_isDigit (d.day % 10) (Nat.mod_lt _ (by omega))
  simp [isYYYYMMDD, formatDate, pad4, pad2, String.toList, h1, h2, h3, h4,
    h5, h6, h7, h8]

/-- If the provider never raises and some attempt within the fuel window
has a method with a non-empty table, the loop returns the normalisation
of a non-empty table delivered by one of the two methods. -/
theorem loadLoop_success_found (P : Provider) (t sS eS : String) (mr : Nat)
    (H D : Nat → List (SimpleDate × ℚ))
    (hh : ∀ i, P.history i = .rows (H i))
    (hd : ∀ i, P.download i = .rows (D i)) :
    ∀ fuel attempt, attempt + fuel = mr →
      (∃ i, attempt ≤ i ∧ i < mr ∧ (H i ≠ [] ∨ D i ≠ [])) →
      ∃ rs, rs ≠ [] ∧
        (∃ i, P.history i = .rows rs ∨ P.download i = .rows rs) ∧
        (loadLoop P t sS eS mr fuel attempt).1 = normalize rs := by
  intro fuel
  induction fuel with
  | zero =>
    intro attempt hsum hex
    obtain ⟨i, hi1, hi2, _⟩ := hex
    omega
  | succ f ih =>
    intro attempt hsum hex
    by_cases hH : H attempt = []
    · have hra : runAttempt P attempt t sS eS =
          (.rows (D attempt), [.callHistory t sS eS, .callDownload t sS eS]) := by
        have := runAttempt_hist_empty P attempt t sS eS (hH ▸ hh attempt)
        rw [this, hd attempt]
      by_cases hD : D attempt = []
      · obtain ⟨i, hi1, hi2, hi3⟩ := hex
        have hine : i ≠ attempt := by
          rintro rfl
          rcases hi3 with h | h
          · exact h hH
          · exact h hD
        have hlt : attempt < mr - 1 := by omega
        rw [loadLoop_step_empty_cont P t sS eS mr f attempt _
          (by rw [hra, hD]) hlt]
        exact ih (attempt + 1) (by omega) ⟨i, by omega, hi2, hi3⟩
      · rw [loadLoop_step_success P t sS eS mr f attempt _ (D attempt) hra hD]
        exact ⟨D attempt, hD, ⟨attempt, Or.inr (hd attempt)⟩, rfl⟩
    · rw [loadLoop_step_success P t sS eS mr f attempt _ (H attempt)
        (runAttempt_hist_rows_ne P attempt t sS eS (H attempt) (hh attempt) hH) hH]
      exact ⟨H attempt, hH, ⟨attempt, Or.inl (hh attempt)⟩, rfl⟩

/-- C1: if the provider raises nothing, honours the data contract
(each delivered table holds real calendar dates within the inclusive
query range `[start, end]`, strictly ascending), and some attempt has a
method with at least one row, then `load_data` returns a non-empty
series whose rows are the formatted dates of an underlying strictly
ascending (hence duplicate-free) date list lying in `[start, end]`, each
rendered in the `YYYY-MM-DD` shape. -/
theorem c1_in_range_sorted (P : Provider) (H D : Nat → List (SimpleDate × ℚ))
    (t : String) (s e : SimpleDate) (mr : Nat)
    (hh : ∀ i, P.history i = .rows (H i))
    (hd : ∀ i, P.download i = .rows (D i))
    (hgood : ∀ i rs, (P.history i = .rows rs ∨ P.download i = .rows rs) →
      (∀ p ∈ rs, dateLe s p.1 ∧ dateLe p.1 e ∧ validDate p.1) ∧
      rs.Pairwise (fun a b => dateLt a.1 b.1))
    (hsome : ∃ i, i < mr ∧ (H i ≠ [] ∨ D i ≠ [])) :
    (load_data P t s e mr).1 ≠ [] ∧
    (∃ ds : List SimpleDate,
      (load_data P t s e mr).1.map Prod.fst = ds.map formatDate ∧
      ds.Pairwise dateLt ∧
      (∀ d ∈ ds, dateLe s d ∧ dateLe d e ∧ validDate d)) ∧
    (∀ q ∈ (load_data P t s e mr).1, isYYYYMMDD q.1 = true) := by
  obtain ⟨i0, hi0, hne0⟩ := hsome
  obtain ⟨rs, hrs_ne, hrs_src, hres⟩ := loadLoop_success_found P t
    (formatDate s) (formatDate (nextDay e)) mr H D hh hd mr 0 (by omega)
    ⟨i0, by omega, hi0, hne0⟩
  obtain ⟨i1, hsrc⟩ := hrs_src
  obtain ⟨hin, hpair⟩ := hgood i1 rs hsrc
  have hload : (load_data P t s e mr).1 = normalize rs := hres
  refine ⟨?_, ⟨rs.map Prod.fst, ?_, ?_, ?_⟩, ?_⟩
  · rw [hload]
    simp [normalize, hrs_ne]
  · rw [hload]
    simp [normalize, List.map_map]
  · exact hpair.map Prod.fst (fun a b hab => hab)
  · intro d hdm
    obtain ⟨p, hp, rfl⟩ := List.mem_map.mp hdm
    exact hin p hp
  · intro q hq
    rw [hload] at hq
    obtain ⟨p, _, rfl⟩ := List.mem_map.mp hq
    exact isYYYYMMDD_formatDate p.1

/-- Witness for C1: a provider holding one row (2024-01-02, close 100)
for the query range 2024-01-02 .. 2024-01-02. -/
theorem c1_in_range_sorted_witness :
    (∀ i : Nat, providerOneRow.history i = .rows [(⟨2024, 1, 2⟩, 100)]) ∧
    (∀ i : Nat, providerOneRow.download i = .rows []) ∧
    ((load_data providerOneRow "T" ⟨2024, 1, 2⟩ ⟨2024, 1, 2⟩ 3).1 ≠ [] ∧
     (∃ ds : List SimpleDate,
       (load_data providerOneRow "T" ⟨2024, 1, 2⟩ ⟨2024, 1, 2⟩ 3).1.map Prod.fst =
         ds.map formatDate ∧
       ds.Pairwise dateLt ∧
       (∀ d ∈ ds, dateLe ⟨2024, 1, 2⟩ d ∧ dateLe d ⟨2024, 1, 2⟩ ∧ validDate d)) ∧
     (∀ q ∈ (load_data providerOneRow "T" ⟨2024, 1, 2⟩ ⟨2024, 1, 2⟩ 3).1,
       isYYYYMMDD q.1 = true)) := by
  refine ⟨fun _ => rfl, fun _ => rfl, ?_⟩
  refine c1_in_range_sorted providerOneRow (fun _ => [(⟨2024, 1, 2⟩, 100)])
    (fun _ => []) "T" ⟨2024, 1, 2⟩ ⟨2024, 1, 2⟩ 3 (fun _ => rfl) (fun _ => rfl)
    ?_ ⟨0, by omega, Or.inl (by simp)⟩
  intro i rs hsrc
  have hrs : rs = [(⟨2024, 1, 2⟩, 100)] ∨ rs = [] := by
    rcases hsrc with h | h
    · left
      have : FetchResult.rows [(⟨2024, 1, 2⟩, (100 : ℚ))] = .rows rs := h
      injection this with h2
      exact h2.symm
    · right
      have : FetchResult.rows ([] : List (SimpleDate × ℚ)) = .rows rs := h
      injection this with h2
      exact h2.symm
  rcases hrs with rfl | rfl
  · constructor
    · intro p hp
      rw [List.mem_singleton] at hp
      subst hp
      refine ⟨Or.inr rfl, Or.inr rfl, ?_⟩
      decide
    · simp
  · simp

end StockDownloader
